import Mathlib

/-!
Verification of the banding-correction core of `modular-xray-gui`.

This file shallowly embeds the functions of
`src/experiments/correct_banding_dark_pixels.py` (whose
`moving_average_1d` is duplicated verbatim in
`src/experiments/banding_fixer.py`): `moving_average_1d`,
`optimize_smooth_window`, `detect_banding` and `correct_banding`.

Embedding conventions:
- an image (numpy `(H, W)` uint16 array) is a list of rows, each row a
  list of natural-number samples;
- the float32 arithmetic of the source is embedded as exact rational
  arithmetic (`astype(np.float32)` becomes coercion into the rationals);
- numpy `std` values live in the reals (a square root); everything below
  the square root is computable;
- Python slice semantics (negative indices counting from the end, then
  clamping into range) are embedded explicitly, since the stripe
  extraction relies on them.
-/

namespace Banding

/-- An image: a list of rows, each row a list of uint16 samples. -/
abbrev Image := List (List ℕ)

/-- Number of image rows, numpy shape component 0. -/
def height (img : Image) : ℕ := img.length

/-- Number of image columns, numpy shape component 1 (of a rectangular image). -/
def width (img : Image) : ℕ := (img.headD []).length

/-- All samples of the image fit in uint16, as the dtype of the numpy input
array guarantees. -/
def AllInRange16 (img : Image) : Prop := ∀ row ∈ img, ∀ s ∈ row, s ≤ 65535

/-- Effective index of the Python slice bound i for a sequence of length n:
a negative index counts from the end, then the result is clamped into [0, n]. -/
def sliceIdx (n : ℕ) (i : ℤ) : ℕ :=
  if i < 0 then ((n : ℤ) + i).toNat else min i.toNat n

/-- Python list slice l[a:b] with step 1. -/
def pySlice {α : Type} (l : List α) (a b : ℤ) : List α :=
  (l.take (sliceIdx l.length b)).drop (sliceIdx l.length a)

/-- Embedding of img_u16.astype(np.float32): samples become exact rationals. -/
def astypeF32 (img : Image) : List (List ℚ) :=
  img.map (fun row => row.map (fun s => (s : ℚ)))

/-- The reference-stripe extraction used identically by `correct_banding`,
`detect_banding` and `optimize_smooth_window` in the source:
img[:, w - black_offset - black_w : w - black_offset], where w is the
image width. Slicing follows Python semantics and never fails. -/
def extractStripe (img : List (List ℚ)) (w : ℕ) (black_w black_offset : ℤ) :
    List (List ℚ) :=
  img.map (fun row =>
    pySlice row ((w : ℤ) - black_offset - black_w) ((w : ℤ) - black_offset))

/-- Embedding of np.median of a 1D array: sort ascending, take the middle
element for odd length, the mean of the two middle elements for even length.
For the empty array (where numpy emits a warning and yields NaN) the
embedding returns 0; all claims about medians assume non-empty input. -/
def npMedian (l : List ℚ) : ℚ :=
  if l.length % 2 = 1 then (List.insertionSort (· ≤ ·) l).getD (l.length / 2) 0
  else ((List.insertionSort (· ≤ ·) l).getD (l.length / 2 - 1) 0 +
    (List.insertionSort (· ≤ ·) l).getD (l.length / 2) 0) / 2

/-- Arithmetic mean of a list (0 for the empty list, where numpy yields NaN). -/
def listMean (l : List ℚ) : ℚ := l.sum / l.length

/-- Population variance, the square of np.std. -/
def listVar (l : List ℚ) : ℚ := ((l.map (fun x => (x - listMean l) ^ 2)).sum) / l.length

/-- Embedding of np.std: square root of the population variance. -/
noncomputable def npStd (l : List ℚ) : ℝ := Real.sqrt ((listVar l : ℚ) : ℝ)

/-- Embedding of np.convolve(a, v, mode="valid") for a at least as long as v:
output index i holds the dot product of a[i .. i+m) with the reversed kernel
(convolution flips the kernel; the source kernel is uniform, so the flip is
numerically invisible but kept for faithfulness). -/
def convolveValid (a v : List ℚ) : List ℚ :=
  (List.range (a.length + 1 - v.length)).map (fun i =>
    ∑ j ∈ Finset.range v.length, a.getD (i + j) 0 * v.getD (v.length - 1 - j) 0)

/-- Embedding of moving_average_1d(x, win) from
src/experiments/correct_banding_dark_pixels.py lines 17-31 (duplicated in
src/experiments/banding_fixer.py lines 9-22): identity below window 3,
otherwise edge-replicated padding (win / 2 on the left, win - 1 - win / 2 on
the right) followed by a valid convolution with the uniform kernel
np.ones(win) / win. -/
def moving_average_1d (x : List ℚ) (win : ℕ) : List ℚ :=
  if win < 3 then x
  else
    let k : List ℚ := List.replicate win (1 / (win : ℚ))
    let pad_left := win / 2
    let pad_right := win - 1 - pad_left
    let xp := List.replicate pad_left (x.headD 0) ++ x ++
      List.replicate pad_right (x.getLastD 0)
    convolveValid xp k

/-- The stripe of the float image, as each of the three entry points computes
it: convert to float, read the width, slice the columns. -/
def stripeOf (img : Image) (black_w black_offset : ℤ) : List (List ℚ) :=
  extractStripe (astypeF32 img) (width img) black_w black_offset

/-- The per-row median profile of the reference stripe,
ref = np.median(stripe, axis=1). -/
def refProfile (img : Image) (black_w black_offset : ℤ) : List ℚ :=
  (stripeOf img black_w black_offset).map npMedian

/-- The band residual of detect_banding / correct_banding:
band = ref - moving_average_1d(ref, smooth_win). -/
def bandResidual (img : Image) (black_w black_offset : ℤ) (smooth_win : ℕ) :
    List ℚ :=
  let ref := refProfile img black_w black_offset
  List.zipWith (· - ·) ref (moving_average_1d ref smooth_win)

/-- Standard deviation of the band residual, band_std = np.std(band). -/
noncomputable def bandStd (img : Image) (black_w black_offset : ℤ)
    (smooth_win : ℕ) : ℝ :=
  npStd (bandResidual img black_w black_offset smooth_win)

/-- Embedding of detect_banding (source lines 90-119): extract the reference
stripe, reduce per-row by median, estimate the band residual against the
smoothed profile, and return (band_std > threshold, band_std). The numpy
boolean becomes a proposition because the comparison is on reals. -/
noncomputable def detect_banding (img_u16 : Image) (black_w black_offset : ℤ)
    (smooth_win : ℕ) (threshold : ℝ) : Prop × ℝ :=
  let img := astypeF32 img_u16
  let w := width img_u16
  let stripe := extractStripe img w black_w black_offset
  let ref := stripe.map npMedian
  let ref_slow := moving_average_1d ref smooth_win
  let band := List.zipWith (· - ·) ref ref_slow
  let band_std := npStd band
  (band_std > threshold, band_std)

/-- Per-candidate quality score of optimize_smooth_window (source lines
68-78): correct the reference stripe with the candidate window and take the
standard deviation of its re-measured median profile. -/
noncomputable def candidateScore (stripe : List (List ℚ)) (ref : List ℚ)
    (smooth_win : ℕ) : ℝ :=
  let ref_slow := moving_average_1d ref smooth_win
  let band := List.zipWith (· - ·) ref ref_slow
  let corrected_stripe := List.zipWith (fun row b => row.map (fun s => s - b)) stripe band
  let corrected_ref := corrected_stripe.map npMedian
  npStd corrected_ref

/-- The per-candidate score as a function of the image and geometry. -/
noncomputable def optScore (img : Image) (black_w black_offset : ℤ) (c : ℕ) : ℝ :=
  candidateScore (stripeOf img black_w black_offset)
    (refProfile img black_w black_offset) c

/-- Default candidate grid of optimize_smooth_window (source lines 47-55):
range(10, min(512, h // 4) + 1, 5) — whose length is the rounded-up count
(min(512, h // 4) + 1 - 10 + 4) / 5, clamped at zero — or the fixed
fallback list when that range is empty. -/
def defaultCandidates (h : ℕ) : List ℕ :=
  if (List.range' 10 ((min 512 (h / 4) + 1 - 10 + 4) / 5) 5).length = 0 then
    [10, 32, 64, 128, 256]
  else List.range' 10 ((min 512 (h / 4) + 1 - 10 + 4) / 5) 5

/-- Candidate resolution: an explicit list is used as given (Python
candidates not None); otherwise the default grid for the image height. -/
def resolveCandidates (img : Image) : Option (List ℕ) → List ℕ
  | some cs => cs
  | none => defaultCandidates (height img)

open Classical in
/-- The selection loop of optimize_smooth_window (source lines 63-84): keep
the first candidate whose score is strictly below the best so far. The
initial best_score = float('inf') and the running best live in the extended
reals. -/
noncomputable def selectLoop (score : ℕ → ℝ) : List ℕ → ℕ × EReal → ℕ × EReal
  | [], best => best
  | c :: cs, (bw, bs) =>
      selectLoop score cs (if (score c : EReal) < bs then (c, score c) else (bw, bs))

/-- Embedding of optimize_smooth_window(img_u16, black_w, black_offset,
candidates) (source lines 34-87). For an explicitly supplied empty candidate
list the Python code raises IndexError at candidates[0]; that unreachable
case yields window 0 here, and every claim assumes a non-empty list. -/
noncomputable def optimize_smooth_window (img_u16 : Image)
    (black_w black_offset : ℤ) (candidates : Option (List ℕ)) : ℕ × EReal :=
  let cands := resolveCandidates img_u16 candidates
  selectLoop (optScore img_u16 black_w black_offset) cands (cands.headD 0, ⊤)

/-- Embedding of np.clip(v, 0, 65535). -/
def npClip16 (q : ℚ) : ℚ := max 0 (min q 65535)

/-- Embedding of the .astype(np.uint16) cast applied after the clip:
truncation to an integer (equal to the floor on the clipped, non-negative
values it is applied to). -/
def toU16 (q : ℚ) : ℕ := (⌊q⌋).toNat

/-- The correction body of correct_banding (source lines 153-187): extract
the stripe, estimate the band residual, subtract it from every row of the
float image, clip to [0, 65535] and cast back to uint16. -/
def applyCorrection (img_u16 : Image) (black_w black_offset : ℤ) (win : ℕ) :
    Image :=
  let img := astypeF32 img_u16
  let w := width img_u16
  let stripe := extractStripe img w black_w black_offset
  let ref := stripe.map npMedian
  let ref_slow := moving_average_1d ref win
  let band := List.zipWith (· - ·) ref ref_slow
  let corrected := List.zipWith (fun row b => row.map (fun s => s - b)) img band
  corrected.map (fun row => row.map (fun s => toU16 (npClip16 s)))

open Classical in
/-- Embedding of correct_banding(img_u16, black_w, black_offset, smooth_win,
auto_detect, threshold, auto_optimize) (source lines 122-187). The
diagnostic re-measurement and prints of lines 170-183 do not affect the
returned value and are omitted; img_u16.copy() on the short-circuit path is
value-equal to the input. -/
noncomputable def correct_banding (img_u16 : Image) (black_w black_offset : ℤ)
    (smooth_win : ℕ) (auto_detect : Bool) (threshold : ℝ) (auto_optimize : Bool) :
    Image × Bool :=
  let win := if auto_optimize then
      (optimize_smooth_window img_u16 black_w black_offset none).1
    else smooth_win
  if auto_detect = true ∧ ¬ (detect_banding img_u16 black_w black_offset win threshold).1 then
    (img_u16, false)
  else
    (applyCorrection img_u16 black_w black_offset win, true)

/-- An integer position clamped into the index range [0, n - 1]: the index
arithmetic of edge-value replication. -/
def clampIdx (n : ℕ) (t : ℤ) : ℕ := (min (max t 0) ((n : ℤ) - 1)).toNat

/-- The minimum of the candidate scores, as an extended real: top for the
empty list, matching the loop's initial best_score = float('inf'). -/
noncomputable def minScore (f : ℕ → ℝ) (l : List ℕ) : EReal :=
  (l.map (fun c => (f c : EReal))).foldr min ⊤

/-- Formalization of claim C2 about optimize_smooth_window: its best_score
is the minimum over all candidates of the corrected-stripe score; its
best_window is the first candidate in iteration order attaining that
minimum (every earlier candidate scores strictly higher, as the comparison
is strict); and when no candidate list is supplied the candidates are the
multiples of 5 from 10 up to min(512, height // 4), with the fixed fallback
list when that range is empty. -/
def OptimizerClaim (img : Image) (black_w black_offset : ℤ)
    (copt : Option (List ℕ)) : Prop :=
  ((∃ c ∈ resolveCandidates img copt,
      (optimize_smooth_window img black_w black_offset copt).2
        = (optScore img black_w black_offset c : EReal)) ∧
    (∀ c ∈ resolveCandidates img copt,
      (optimize_smooth_window img black_w black_offset copt).2
        ≤ (optScore img black_w black_offset c : EReal))) ∧
  (∃ i < (resolveCandidates img copt).length,
    (optimize_smooth_window img black_w black_offset copt).1
      = (resolveCandidates img copt).getD i 0 ∧
    (optScore img black_w black_offset ((resolveCandidates img copt).getD i 0) : EReal)
      = (optimize_smooth_window img black_w black_offset copt).2 ∧
    ∀ j < i, (optimize_smooth_window img black_w black_offset copt).2
      < (optScore img black_w black_offset ((resolveCandidates img copt).getD j 0) : EReal)) ∧
  (copt = none →
    (10 ≤ min 512 (height img / 4) →
      ∀ c, (c ∈ resolveCandidates img copt ↔
        (10 ≤ c ∧ c ≤ min 512 (height img / 4) ∧ c % 5 = 0))) ∧
    (min 512 (height img / 4) < 10 →
      resolveCandidates img copt = [10, 32, 64, 128, 256]))

/-- Modelled from the spec (section 4.2, Reference-Stripe Extractor), as the
spec-side counterpart of extractStripe for the refinement claim C1: the
extraction "fails (signals an error) when width <= 0, or when the requested
stripe would fall outside image bounds after applying offset". -/
def extract_stripe_spec (img : List (List ℚ)) (w : ℕ) (black_w black_offset : ℤ) :
    Except String (List (List ℚ)) :=
  if black_w ≤ 0 ∨ black_offset < 0 ∨ (w : ℤ) - black_offset - black_w < 0 then
    .error "stripe out of bounds"
  else
    .ok (img.map (fun row =>
      pySlice row ((w : ℤ) - black_offset - black_w) ((w : ℤ) - black_offset)))

/-! Helper lemmas shared by several claims. -/

/-- The smoother preserves length unconditionally: the padded sequence has
length x.length + win - 1, and the valid convolution removes win - 1 again. -/
theorem moving_average_1d_length (x : List ℚ) (win : ℕ) :
    (moving_average_1d x win).length = x.length := by
  unfold moving_average_1d
  by_cases h : win < 3
  · simp [h]
  · simp only [h, if_false, convolveValid, List.length_map, List.length_range,
      List.length_append, List.length_replicate]
    omega

/-- A Python slice with a non-negative stop bound at or before its start
bound is empty. -/
theorem pySlice_eq_nil {α : Type} (l : List α) (a b : ℤ) (hb : 0 ≤ b)
    (hab : b ≤ a) : pySlice l a b = [] := by
  apply List.eq_nil_of_length_eq_zero
  have ha' : ¬ a < 0 := by omega
  have hb' : ¬ b < 0 := by omega
  simp only [pySlice, sliceIdx, ha', hb', if_false, List.length_drop,
    List.length_take]
  omega

/-- Reading the edge-padded sequence at any in-range position is reading the
original sequence at the clamped position: before the data it repeats the
first sample, after it the last sample. -/
theorem padded_getD (x : List ℚ) (pl pr t : ℕ) (hx : x ≠ [])
    (ht : t < pl + x.length + pr) :
    (List.replicate pl (x.headD 0) ++ x ++ List.replicate pr (x.getLastD 0)).getD t 0
      = x.getD (clampIdx x.length ((t : ℤ) - (pl : ℤ))) 0 := by
  have hN : 0 < x.length := List.length_pos.mpr hx
  have hhead : x.headD 0 = x.getD 0 0 := by
    rw [List.headD_eq_head?, List.head?_eq_getElem?, List.getD_eq_getElem?_getD]
  have hlast : x.getLastD 0 = x.getD (x.length - 1) 0 := by
    rw [List.getLastD_eq_getLast?, List.getLast?_eq_getElem?, List.getD_eq_getElem?_getD]
  have hlenA : (List.replicate pl (x.headD 0)).length = pl := List.length_replicate pl _
  have hlenAx : (List.replicate pl (x.headD 0) ++ x).length = pl + x.length := by
    simp
  rcases Nat.lt_or_ge t pl with h1 | h1
  · have hc : clampIdx x.length ((t : ℤ) - (pl : ℤ)) = 0 := by
      unfold clampIdx
      omega
    rw [hc, List.getD_eq_getElem?_getD, List.getElem?_append, if_pos (by omega),
      List.getElem?_append, if_pos (by omega), List.getElem?_replicate, if_pos h1]
    simp [hhead]
    rw [List.head?_eq_getElem?]
  · rcases Nat.lt_or_ge t (pl + x.length) with h2 | h2
    · have hc : clampIdx x.length ((t : ℤ) - (pl : ℤ)) = t - pl := by
        unfold clampIdx
        omega
      rw [hc, List.getD_eq_getElem?_getD, List.getElem?_append, if_pos (by omega),
        List.getElem?_append, if_neg (by omega), hlenA, List.getD_eq_getElem?_getD]
    · have hc : clampIdx x.length ((t : ℤ) - (pl : ℤ)) = x.length - 1 := by
        unfold clampIdx
        omega
      rw [hc, List.getD_eq_getElem?_getD, List.getElem?_append, if_neg (by omega),
        hlenAx, List.getElem?_replicate, if_pos (by omega)]
      simp [hlast]
      rw [List.getLast?_eq_getElem?]

/-- Reading the valid convolution at an in-range position gives the flipped
dot product of the two sequences at that lag. -/
theorem convolveValid_getD (a v : List ℚ) (i : ℕ)
    (hi : i < a.length + 1 - v.length) :
    (convolveValid a v).getD i 0
      = ∑ j ∈ Finset.range v.length, a.getD (i + j) 0 * v.getD (v.length - 1 - j) 0 := by
  unfold convolveValid
  rw [List.getD_eq_getElem?_getD, List.getElem?_map, List.getElem?_range hi]
  rfl

/-- Reading a replicated list inside its range gives the replicated value. -/
theorem replicate_getD {n : ℕ} {c : ℚ} {m : ℕ} (h : m < n) :
    (List.replicate n c).getD m 0 = c := by
  rw [List.getD_eq_getElem?_getD, List.getElem?_replicate, if_pos h]
  rfl

/-- Reading a mapped subtraction inside the index range subtracts from the
read value. -/
theorem getD_map_sub (s : List ℚ) (c : ℚ) (m : ℕ) (hm : m < s.length) :
    (s.map (fun v => v - c)).getD m 0 = s.getD m 0 - c := by
  rw [List.getD_eq_getElem?_getD, List.getElem?_map, List.getElem?_eq_getElem hm,
    List.getD_eq_getElem?_getD, List.getElem?_eq_getElem hm]
  rfl

/-- Sorting commutes with subtracting a per-line constant, because the
subtraction is strictly monotone. -/
theorem insertionSort_map_sub (l : List ℚ) (c : ℚ) :
    List.insertionSort (· ≤ ·) (l.map (fun v => v - c))
      = (List.insertionSort (· ≤ ·) l).map (fun v => v - c) := by
  apply List.eq_of_perm_of_sorted (r := (· ≤ ·))
  · exact (List.perm_insertionSort _ _).trans
      (((List.perm_insertionSort (· ≤ ·) l).symm).map _)
  · exact List.sorted_insertionSort _ _
  · exact List.Pairwise.map _ (fun a b h => sub_le_sub_right h c)
      (List.sorted_insertionSort (· ≤ ·) l)

/-- The median commutes with subtracting a per-line constant: both the
odd-length middle element and the even-length middle average shift by
exactly that constant. -/
theorem npMedian_map_sub (l : List ℚ) (c : ℚ) (hl : l ≠ []) :
    npMedian (l.map (fun v => v - c)) = npMedian l - c := by
  have hN : 0 < l.length := List.length_pos.mpr hl
  have hlen : (List.insertionSort (· ≤ ·) l).length = l.length :=
    List.length_insertionSort _ _
  unfold npMedian
  rw [List.length_map, insertionSort_map_sub]
  by_cases h : l.length % 2 = 1
  · rw [if_pos h, if_pos h, getD_map_sub _ _ _ (by rw [hlen]; omega)]
  · rw [if_neg h, if_neg h, getD_map_sub _ _ _ (by rw [hlen]; omega),
      getD_map_sub _ _ _ (by rw [hlen]; omega)]
    ring

/-! Claim theorems. -/

/-- C1 (counterexample): the claim says the stripe extraction used by
correct_banding and detect_banding signals an error for width <= 0 or an
out-of-bounds offset/width. On a 1-by-4 image with width 6 and offset 0 the
spec-side extractor demands an error, but the code's extraction silently
wraps the negative start index and proceeds on a wrong 2-column sub-region;
with width 0 it silently yields an empty stripe. No error is signalled. -/
theorem extract_stripe_no_error_cex :
    extract_stripe_spec [[0, 1, 2, 3]] 4 6 0 = .error "stripe out of bounds" ∧
    extractStripe [[0, 1, 2, 3]] 4 6 0 = [[2, 3]] ∧
    extractStripe [[0, 1, 2, 3]] 4 0 0 = [[]] :=
  ⟨rfl, rfl, rfl⟩

/-- C1 (amended): the stripe extraction never signals an error; it follows
Python slice semantics. In particular, for width <= 0 (with an in-range
offset) it silently returns an empty stripe — zero columns in every row —
and correct_banding / detect_banding proceed on it. -/
theorem extract_stripe_nonpos_width_empty (img : List (List ℚ)) (w : ℕ)
    (black_w black_offset : ℤ) (hw : black_w ≤ 0) (h0 : 0 ≤ black_offset)
    (hW : black_offset ≤ (w : ℤ)) :
    extractStripe img w black_w black_offset = img.map (fun _ => []) := by
  unfold extractStripe
  apply List.map_congr_left
  intro row _
  exact pySlice_eq_nil row _ _ (by omega) (by omega)

/-- Witness for C1 (amended) at a concrete input. -/
theorem extract_stripe_nonpos_width_empty_witness :
    extractStripe [[0, 1, 2]] 3 (-1) 0 = ([[0, 1, 2]] : List (List ℚ)).map (fun _ => []) :=
  extract_stripe_nonpos_width_empty [[0, 1, 2]] 3 (-1) 0 (by decide) (by decide)
    (by decide)

/-- C8: for every non-empty profile and every window of at least 3 —
including windows strictly larger than the profile length — the smoother is
defined (a total function here) and returns a sequence of exactly the input
length. -/
theorem moving_average_defined_length (x : List ℚ) (win : ℕ)
    (hx : x ≠ []) (hwin : 3 ≤ win) :
    (moving_average_1d x win).length = x.length :=
  moving_average_1d_length x win

/-- Witness for C8 with a window (9) strictly larger than the profile
length (2). -/
theorem moving_average_defined_length_witness :
    (moving_average_1d [1, 2] 9).length = ([1, 2] : List ℚ).length :=
  moving_average_defined_length [1, 2] 9 (by decide) (by decide)

/-- C9: for every profile and every window below 3, the smoother returns the
input profile unchanged (the astype(np.float32) conversion of the source is
the identity in this exact embedding). -/
theorem moving_average_small_window_noop (x : List ℚ) (win : ℕ) (h : win < 3) :
    moving_average_1d x win = x := by
  simp [moving_average_1d, h]

/-- Witness for C9 at a concrete input. -/
theorem moving_average_small_window_noop_witness :
    moving_average_1d [5, 7] 2 = [5, 7] :=
  moving_average_small_window_noop [5, 7] 2 (by decide)

/-- C7: for a window of at least 3, every output sample of the smoother is
the arithmetic mean of the window surrounding input samples read through
edge-replicating index clamping — exactly the left pad win / 2, right pad
win - 1 - win / 2, uniform kernel valid convolution of the claim; in
particular each interior sample (where no clamping occurs) is the plain
rolling mean, and boundary samples reuse the replicated edge values rather
than zeros, wraparound or reflection. -/
theorem moving_average_characterization (x : List ℚ) (win : ℕ) (hwin : 3 ≤ win)
    (i : ℕ) (hi : i < x.length) :
    ((moving_average_1d x win).getD i 0
      = (∑ j ∈ Finset.range win,
          x.getD (clampIdx x.length ((i : ℤ) + (j : ℤ) - ((win / 2 : ℕ) : ℤ))) 0) / win) ∧
    (win / 2 ≤ i → i + (win - 1 - win / 2) < x.length →
      (moving_average_1d x win).getD i 0
        = (∑ j ∈ Finset.range win, x.getD (i - win / 2 + j) 0) / win) := by
  have hx : x ≠ [] := by
    intro h
    rw [h] at hi
    simp at hi
  have hN : 0 < x.length := List.length_pos.mpr hx
  have hnot : ¬ win < 3 := by omega
  have hmain : (moving_average_1d x win).getD i 0
      = (∑ j ∈ Finset.range win,
          x.getD (clampIdx x.length ((i : ℤ) + (j : ℤ) - ((win / 2 : ℕ) : ℤ))) 0) / win := by
    unfold moving_average_1d
    rw [if_neg hnot]
    dsimp only
    have hlen : (List.replicate (win / 2) (x.headD 0) ++ x ++
        List.replicate (win - 1 - win / 2) (x.getLastD 0)).length
        = x.length + win - 1 := by
      simp
      omega
    rw [convolveValid_getD _ _ i (by
      rw [hlen, List.length_replicate]
      omega)]
    rw [List.length_replicate]
    have hsum : ∀ j ∈ Finset.range win,
        (List.replicate (win / 2) (x.headD 0) ++ x ++
          List.replicate (win - 1 - win / 2) (x.getLastD 0)).getD (i + j) 0 *
          (List.replicate win (1 / (win : ℚ))).getD (win - 1 - j) 0
        = x.getD (clampIdx x.length ((i : ℤ) + (j : ℤ) - ((win / 2 : ℕ) : ℤ))) 0 / win := by
      intro j hj
      rw [Finset.mem_range] at hj
      have hidx : ((i + j : ℕ) : ℤ) - ((win / 2 : ℕ) : ℤ)
          = (i : ℤ) + (j : ℤ) - ((win / 2 : ℕ) : ℤ) := by
        push_cast
        ring
      rw [replicate_getD (by omega), padded_getD x _ _ _ hx (by omega), hidx,
        mul_one_div]
    rw [Finset.sum_congr rfl hsum, ← Finset.sum_div]
  refine ⟨hmain, fun hpl hpr => ?_⟩
  rw [hmain]
  congr 1
  apply Finset.sum_congr rfl
  intro j hj
  rw [Finset.mem_range] at hj
  congr 1
  unfold clampIdx
  omega

/-- Witness for C7: profile of length 4, window 3, interior index 1: the
output sample is the rolling mean of samples 0, 1, 2. -/
theorem moving_average_characterization_witness :
    ((moving_average_1d [1, 2, 3, 4] 3).getD 1 0
      = (∑ j ∈ Finset.range 3,
          ([1, 2, 3, 4] : List ℚ).getD (clampIdx 4 ((1 : ℤ) + (j : ℤ) - ((3 / 2 : ℕ) : ℤ))) 0) / 3) ∧
    (3 / 2 ≤ 1 → 1 + (3 - 1 - 3 / 2) < 4 →
      (moving_average_1d [1, 2, 3, 4] 3).getD 1 0
        = (∑ j ∈ Finset.range 3, ([1, 2, 3, 4] : List ℚ).getD (1 - 3 / 2 + j) 0) / 3) :=
  moving_average_characterization [1, 2, 3, 4] 3 (by decide) 1 (by decide)

/-- A list whose population variance is zero has standard deviation zero. -/
theorem npStd_eq_zero_of_var_eq_zero {l : List ℚ} (h : listVar l = 0) :
    npStd l = 0 := by
  unfold npStd
  rw [h]
  simp

/-- detect_banding is the compositional pipeline: its flag is the strict
threshold comparison of the band residual's standard deviation, and its
scalar is that standard deviation. -/
theorem detect_banding_eq (img : Image) (black_w black_offset : ℤ)
    (smooth_win : ℕ) (threshold : ℝ) :
    detect_banding img black_w black_offset smooth_win threshold =
      (bandStd img black_w black_offset smooth_win > threshold,
       bandStd img black_w black_offset smooth_win) := rfl

/-- C3: detect_banding decides banding by a strict comparison of the band
residual's standard deviation against the threshold: the returned flag holds
exactly when band_std is strictly above the threshold, the returned scalar is
that standard deviation of ref minus its smoothed version, and the flag is
false at or below the threshold. -/
theorem detect_banding_threshold (img : Image) (black_w black_offset : ℤ)
    (smooth_win : ℕ) (threshold : ℝ) :
    ((detect_banding img black_w black_offset smooth_win threshold).1 ↔
      bandStd img black_w black_offset smooth_win > threshold) ∧
    ((detect_banding img black_w black_offset smooth_win threshold).2 =
      bandStd img black_w black_offset smooth_win) ∧
    (bandStd img black_w black_offset smooth_win ≤ threshold ↔
      ¬ (detect_banding img black_w black_offset smooth_win threshold).1) := by
  rw [detect_banding_eq]
  exact ⟨Iff.rfl, rfl, not_lt.symm⟩

/-- C4: with auto_detect enabled and the detector reporting no banding for
the same parameters and threshold, correct_banding short-circuits: it
returns the input image value-equal (the source's img_u16.copy()) together
with applied = false, touching no pixel. -/
theorem correct_banding_autodetect_skip (img : Image) (black_w black_offset : ℤ)
    (smooth_win : ℕ) (threshold : ℝ)
    (hdet : ¬ (detect_banding img black_w black_offset smooth_win threshold).1) :
    correct_banding img black_w black_offset smooth_win true threshold false =
      (img, false) := by
  unfold correct_banding
  simp only [Bool.false_eq_true, if_false]
  rw [if_pos ⟨rfl, hdet⟩]

/-- Witness for C4: a constant 1-by-1 image has zero band residual, so the
detector reports no banding at threshold 5 and the correction is skipped. -/
theorem correct_banding_autodetect_skip_witness :
    correct_banding [[5]] 1 0 1 true 5 false = ([[5]], false) :=
  correct_banding_autodetect_skip [[5]] 1 0 1 5 (by
    rw [detect_banding_eq]
    have hres : bandResidual [[5]] 1 0 1 = [0] := by
      norm_num [bandResidual, refProfile, stripeOf, extractStripe, astypeF32,
        pySlice, sliceIdx, npMedian, moving_average_1d, width,
        List.insertionSort, List.orderedInsert]
    rw [show bandStd [[5]] 1 0 1 = npStd (bandResidual [[5]] 1 0 1) from rfl,
      hres, npStd_eq_zero_of_var_eq_zero (by norm_num [listVar, listMean])]
    norm_num)

/-- The clip-and-cast step is total and lands in uint16 range for every
real input. -/
theorem toU16_npClip16_le (q : ℚ) : toU16 (npClip16 q) ≤ 65535 := by
  unfold toU16 npClip16
  have h1 : max 0 (min q 65535) ≤ (65535 : ℚ) :=
    max_le (by norm_num) (min_le_right q 65535)
  have h2 : ⌊max 0 (min q 65535)⌋ ≤ (65535 : ℤ) := by
    have := Int.floor_le_floor h1
    simpa using this
  omega

/-- C5: every sample of the image returned by correct_banding lies in
[0, 65535] (samples are naturals, so non-negativity is by type): on the
correction path the clip-and-cast step is total and never exceeds the
16-bit maximum however large the subtracted residual was, and on the
short-circuit path the returned samples are the in-range input samples. -/
theorem correct_banding_range_invariant (img : Image) (black_w black_offset : ℤ)
    (smooth_win : ℕ) (auto_detect : Bool) (threshold : ℝ) (auto_optimize : Bool)
    (hin : AllInRange16 img) :
    AllInRange16 (correct_banding img black_w black_offset smooth_win auto_detect
      threshold auto_optimize).1 := by
  unfold correct_banding
  dsimp only
  set win' := if auto_optimize = true then
      (optimize_smooth_window img black_w black_offset none).1
    else smooth_win with hwin'
  by_cases h : auto_detect = true ∧
      ¬ (detect_banding img black_w black_offset win' threshold).1
  · rw [if_pos h]
    exact hin
  · rw [if_neg h]
    intro row hrow
    rw [applyCorrection, List.mem_map] at hrow
    obtain ⟨r', _, rfl⟩ := hrow
    intro s hs
    rw [List.mem_map] at hs
    obtain ⟨q, _, rfl⟩ := hs
    exact toU16_npClip16_le q

/-- Witness for C5 at a concrete input. -/
theorem correct_banding_range_invariant_witness :
    AllInRange16 (correct_banding [[5, 70]] 1 0 3 false 5 false).1 :=
  correct_banding_range_invariant [[5, 70]] 1 0 3 false 5 false (by
    unfold AllInRange16
    decide)

/-- minScore of the empty candidate list is top. -/
theorem minScore_nil (f : ℕ → ℝ) : minScore f [] = ⊤ := rfl

/-- minScore peels one candidate at a time. -/
theorem minScore_cons (f : ℕ → ℝ) (a : ℕ) (as : List ℕ) :
    minScore f (a :: as) = min (f a : EReal) (minScore f as) := rfl

/-- minScore is a lower bound on every candidate's score. -/
theorem minScore_le (f : ℕ → ℝ) {c : ℕ} : ∀ {l : List ℕ}, c ∈ l →
    minScore f l ≤ (f c : EReal) := by
  intro l
  induction l with
  | nil =>
      intro h
      cases h
  | cons a as ih =>
      intro h
      rw [minScore_cons]
      rcases List.mem_cons.mp h with rfl | h2
      · exact min_le_left _ _
      · exact le_trans (min_le_right _ _) (ih h2)

/-- minScore of a non-empty candidate list is attained by some candidate. -/
theorem minScore_exists (f : ℕ → ℝ) : ∀ {l : List ℕ}, l ≠ [] →
    ∃ c ∈ l, minScore f l = (f c : EReal) := by
  intro l
  induction l with
  | nil =>
      intro h
      exact absurd rfl h
  | cons a as ih =>
      intro h
      by_cases has : as = []
      · subst has
        refine ⟨a, List.mem_cons_self a [], ?_⟩
        rw [minScore_cons, minScore_nil]
        exact min_eq_left le_top
      · obtain ⟨c, hc, heq⟩ := ih has
        rw [minScore_cons]
        rcases le_total ((f a : EReal)) (minScore f as) with hle | hle
        · exact ⟨a, List.mem_cons_self a as, min_eq_left hle⟩
        · exact ⟨c, List.mem_cons_of_mem a hc, by rw [min_eq_right hle, heq]⟩

/-- minScore of a non-empty candidate list is below the initial infinity. -/
theorem minScore_lt_top (f : ℕ → ℝ) {l : List ℕ} (h : l ≠ []) :
    minScore f l < ⊤ := by
  obtain ⟨c, _, heq⟩ := minScore_exists f h
  rw [heq]
  exact EReal.coe_lt_top _

/-- Full characterization of the selection loop from any accumulator state:
its final best score is the minimum of the incoming best and all candidate
scores; when some candidate is strictly below the incoming best, the final
window is the first candidate attaining the minimum (all earlier candidates
score strictly higher); otherwise the state is returned untouched. -/
theorem selectLoop_spec (f : ℕ → ℝ) :
    ∀ (l : List ℕ) (bw : ℕ) (bs : EReal),
      (selectLoop f l (bw, bs)).2 = min bs (minScore f l) ∧
      (minScore f l < bs →
        ∃ i < l.length, (selectLoop f l (bw, bs)).1 = l.getD i 0 ∧
          ((f (l.getD i 0) : EReal)) = minScore f l ∧
          ∀ j < i, minScore f l < (f (l.getD j 0) : EReal)) ∧
      (bs ≤ minScore f l → selectLoop f l (bw, bs) = (bw, bs)) := by
  intro l
  induction l with
  | nil =>
      intro bw bs
      refine ⟨by rw [minScore_nil]; simp [selectLoop], ?_, ?_⟩
      · intro htop
        rw [minScore_nil] at htop
        exact absurd htop not_top_lt
      · intro _
        rfl
  | cons a as ih =>
      intro bw bs
      rw [minScore_cons]
      simp only [selectLoop]
      by_cases hsb : ((f a : EReal)) < bs
      · rw [if_pos hsb]
        obtain ⟨ih1, ih2, ih3⟩ := ih bw bs
        refine ⟨?_, ?_, ?_⟩
        · rw [(ih a (f a : EReal)).1]
          have h1 : min ((f a : EReal)) (minScore f as) ≤ bs :=
            le_of_lt (lt_of_le_of_lt (min_le_left _ _) hsb)
          rw [min_eq_right h1]
        · intro _
          rcases lt_or_le (minScore f as) ((f a : EReal)) with hlt | hle
          · obtain ⟨i, hi, h1, h2, h3⟩ := (ih a (f a : EReal)).2.1 hlt
            refine ⟨i + 1, by simpa using Nat.succ_lt_succ hi, ?_, ?_, ?_⟩
            · rw [List.getD_cons_succ]
              exact h1
            · rw [List.getD_cons_succ, h2, min_eq_right (le_of_lt hlt)]
            · intro j hj
              rw [min_eq_right (le_of_lt hlt)]
              match j with
              | 0 =>
                  rw [List.getD_cons_zero]
                  exact hlt
              | j + 1 =>
                  rw [List.getD_cons_succ]
                  exact h3 j (by omega)
          · have hstop : selectLoop f as (a, (f a : EReal)) = (a, (f a : EReal)) :=
              (ih a (f a : EReal)).2.2 hle
            refine ⟨0, by simp, ?_, ?_, ?_⟩
            · rw [hstop, List.getD_cons_zero]
            · rw [List.getD_cons_zero, min_eq_left hle]
            · intro j hj
              exact absurd hj (Nat.not_lt_zero j)
        · intro hle
          have : bs ≤ (f a : EReal) := le_trans hle (min_le_left _ _)
          exact absurd hsb (not_lt.mpr this)
      · rw [if_neg hsb]
        have hbs : bs ≤ (f a : EReal) := le_of_not_lt hsb
        obtain ⟨ih1, ih2, ih3⟩ := ih bw bs
        refine ⟨?_, ?_, ?_⟩
        · rw [ih1, ← min_assoc, min_eq_left (le_of_not_lt hsb)]
        · intro hlt
          have hm : minScore f as < bs := by
            rcases lt_or_le (minScore f as) ((f a : EReal)) with h | h
            · rw [min_eq_right (le_of_lt h)] at hlt
              exact hlt
            · rw [min_eq_left h] at hlt
              exact absurd hlt hsb
          have hmas : min ((f a : EReal)) (minScore f as) = minScore f as :=
            min_eq_right (le_of_lt (lt_of_lt_of_le hm hbs))
          obtain ⟨i, hi, h1, h2, h3⟩ := ih2 hm
          refine ⟨i + 1, by simpa using Nat.succ_lt_succ hi, ?_, ?_, ?_⟩
          · rw [List.getD_cons_succ]
            exact h1
          · rw [List.getD_cons_succ, h2, hmas]
          · intro j hj
            rw [hmas]
            match j with
            | 0 =>
                rw [List.getD_cons_zero]
                exact lt_of_lt_of_le hm (le_of_not_lt hsb)
            | j + 1 =>
                rw [List.getD_cons_succ]
                exact h3 j (by omega)
        · intro hle
          exact ih3 (le_trans hle (min_le_right _ _))

/-- The two shapes of the default candidate grid: for images tall enough
(min(512, h // 4) at least 10) the grid holds exactly the multiples of 5
from 10 up to min(512, h // 4); for shorter images the fixed fallback list
is used. -/
theorem defaultCandidates_spec (h : ℕ) :
    (10 ≤ min 512 (h / 4) →
      ∀ c, (c ∈ defaultCandidates h ↔
        (10 ≤ c ∧ c ≤ min 512 (h / 4) ∧ c % 5 = 0))) ∧
    (min 512 (h / 4) < 10 → defaultCandidates h = [10, 32, 64, 128, 256]) := by
  constructor
  · intro hge c
    unfold defaultCandidates
    rw [if_neg (by rw [List.length_range']; omega)]
    rw [List.mem_range']
    constructor
    · rintro ⟨i, hi, rfl⟩
      omega
    · rintro ⟨h10, hle, hmod⟩
      exact ⟨(c - 10) / 5, by omega, by omega⟩
  · intro hlt
    unfold defaultCandidates
    rw [if_pos (by rw [List.length_range']; omega)]

/-- C10: inside the optimizer, the re-measured median profile of the
corrected stripe equals the smoothed profile exactly — subtracting the
per-row constant band[r] from row r commutes with the per-row median, and
ref[r] - (ref[r] - slow[r]) = slow[r] — so every candidate's score is the
standard deviation of the smoothed profile itself, independent of the
removed residual. -/
theorem optimizer_corrected_profile_eq_smoothed (img : Image)
    (black_w black_offset : ℤ) (win : ℕ)
    (hrow : ∀ row ∈ stripeOf img black_w black_offset, row ≠ []) :
    (List.zipWith (fun row b => row.map (fun s => s - b))
        (stripeOf img black_w black_offset)
        (List.zipWith (· - ·) (refProfile img black_w black_offset)
          (moving_average_1d (refProfile img black_w black_offset) win))).map npMedian
      = moving_average_1d (refProfile img black_w black_offset) win ∧
    candidateScore (stripeOf img black_w black_offset)
        (refProfile img black_w black_offset) win
      = npStd (moving_average_1d (refProfile img black_w black_offset) win) := by
  have hlenslow : (moving_average_1d (refProfile img black_w black_offset) win).length
      = (refProfile img black_w black_offset).length := moving_average_1d_length _ _
  have hlenref : (refProfile img black_w black_offset).length
      = (stripeOf img black_w black_offset).length := by
    rw [refProfile]
    exact List.length_map _ _
  have hmain : (List.zipWith (fun row b => row.map (fun s => s - b))
      (stripeOf img black_w black_offset)
      (List.zipWith (· - ·) (refProfile img black_w black_offset)
        (moving_average_1d (refProfile img black_w black_offset) win))).map npMedian
      = moving_average_1d (refProfile img black_w black_offset) win := by
    apply List.ext_getElem
    · simp only [List.length_map, List.length_zipWith, hlenslow, hlenref, min_self]
    · intro n h1 h2
      simp only [List.getElem_map, List.getElem_zipWith]
      rw [npMedian_map_sub _ _ (hrow _ (List.getElem_mem _))]
      simp only [refProfile, List.getElem_map]
      ring
  refine ⟨hmain, ?_⟩
  rw [candidateScore, hmain]

/-- Witness for C10 on a concrete 2-by-2 image whose stripe is the whole
image. -/
theorem optimizer_corrected_profile_eq_smoothed_witness :
    (List.zipWith (fun row b => row.map (fun s => s - b))
        (stripeOf [[1, 2], [3, 4]] 2 0)
        (List.zipWith (· - ·) (refProfile [[1, 2], [3, 4]] 2 0)
          (moving_average_1d (refProfile [[1, 2], [3, 4]] 2 0) 3))).map npMedian
      = moving_average_1d (refProfile [[1, 2], [3, 4]] 2 0) 3 ∧
    candidateScore (stripeOf [[1, 2], [3, 4]] 2 0)
        (refProfile [[1, 2], [3, 4]] 2 0) 3
      = npStd (moving_average_1d (refProfile [[1, 2], [3, 4]] 2 0) 3) :=
  optimizer_corrected_profile_eq_smoothed [[1, 2], [3, 4]] 2 0 3 (by decide)

/-- C2: for every image and non-empty resolved candidate list,
optimize_smooth_window returns the minimum score over the candidates
together with the first candidate attaining it (strict comparison keeps
the earliest), and the default candidate grid is range(10,
min(512, h // 4) + 1, 5) with the fixed fallback when empty. -/
theorem optimize_smooth_window_argmin (img : Image) (black_w black_offset : ℤ)
    (copt : Option (List ℕ)) (hne : resolveCandidates img copt ≠ []) :
    OptimizerClaim img black_w black_offset copt := by
  unfold OptimizerClaim
  have hopt : optimize_smooth_window img black_w black_offset copt
      = selectLoop (optScore img black_w black_offset)
          (resolveCandidates img copt)
          ((resolveCandidates img copt).headD 0, ⊤) := rfl
  obtain ⟨h1, h2, h3⟩ := selectLoop_spec (optScore img black_w black_offset)
    (resolveCandidates img copt) ((resolveCandidates img copt).headD 0) ⊤
  have hmin : (optimize_smooth_window img black_w black_offset copt).2
      = minScore (optScore img black_w black_offset) (resolveCandidates img copt) := by
    rw [hopt, h1, min_eq_right le_top]
  refine ⟨⟨?_, ?_⟩, ?_, ?_⟩
  · obtain ⟨c, hc, heq⟩ := minScore_exists (optScore img black_w black_offset) hne
    exact ⟨c, hc, by rw [hmin, heq]⟩
  · intro c hc
    rw [hmin]
    exact minScore_le _ hc
  · obtain ⟨i, hi, ha, hb, hc⟩ :=
      h2 (minScore_lt_top (optScore img black_w black_offset) hne)
    refine ⟨i, hi, ?_, ?_, ?_⟩
    · rw [hopt]
      exact ha
    · rw [hmin]
      exact hb
    · intro j hj
      rw [hmin]
      exact hc j hj
  · intro hnone
    subst hnone
    have hres : resolveCandidates img none = defaultCandidates (height img) := rfl
    rw [hres]
    exact defaultCandidates_spec (height img)

/-- Witness for C2 with an explicitly supplied one-candidate list. -/
theorem optimize_smooth_window_argmin_witness :
    OptimizerClaim [[0, 0], [0, 0]] 1 0 (some [7]) :=
  optimize_smooth_window_argmin [[0, 0], [0, 0]] 1 0 (some [7]) (by decide)

end Banding
